import Mathlib

/-!
# Verification of the signal-automata core (parser, clause evaluator, diagram engine)

Shallow embedding of `src/lib/automata/{Clause,Configuration,Automaton}.ts`.

Modelling conventions:
* JS `Symbol.for(name)` interning gives signals name-equality semantics, so a
  signal is modelled as its name (`String`).
* A cell's JS `Set` of signals is an insertion-ordered duplicate-free list
  (`Set.add` appends the signal only when it is absent), which matches JS
  `Set` iteration semantics exactly and keeps every computation reducible.
* A JS neighborhood object (offset → live `Set` reference) is modelled as a
  function `Int → Option (List Signal)`: `none` for an offset that is not a
  key of the object (a JS access would yield `undefined` and a subsequent
  method call would throw), `some s` for a present offset.
* Runtime failures (TypeError on `undefined` dereference, parser exceptions)
  are modelled with `Option`/`Except`: `none` / `.error` is a thrown error.
* In-place mutation of the diagram is modelled by explicit state passing. The
  JS neighborhood holds live references to the cell sets, so a clause
  evaluation sees all writes made before the rule is evaluated; the model
  therefore rebuilds the window from the current diagram state at each rule.
-/

/-- Signals are interned by name (`Symbol.for`), so name strings model them. -/
abbrev Signal := String

/-- `Neighborhood` from `types.ts`: offset → signal set, partial (JS object). -/
abbrev Neighborhood := Int → Option (List Signal)

/-- `Set.prototype.add`: append the signal when absent, no-op when present. -/
def setAdd (cell : List Signal) (s : Signal) : List Signal :=
  if s ∈ cell then cell else cell ++ [s]

/-- `Configuration` from `Configuration.ts`: an ordered list of cells, each a
set of signals (JS `Set`, modelled as an insertion-ordered list). -/
structure Configuration where
  cells : List (List Signal)
deriving DecidableEq

namespace Configuration

/-- `Configuration.getSize`. -/
def getSize (config : Configuration) : Nat :=
  config.cells.length

/-- `Configuration.getNeighborhood(c, minNeighbor, maxNeighbor)`: offsets in
`[minNeighbor, maxNeighbor]` map to the cell's set (empty set outside the
strip); offsets outside the range are absent from the JS object (`none`). -/
def getNeighborhood (config : Configuration) (c : Nat) (minNeighbor maxNeighbor : Int) :
    Neighborhood :=
  fun i =>
    if minNeighbor ≤ i ∧ i ≤ maxNeighbor then
      some (if 0 ≤ (c : Int) + i ∧ (c : Int) + i < (config.cells.length : Int) then
        config.cells.getD ((c : Int) + i).toNat []
      else [])
    else none

end Configuration

/-- The clause variants of `Clause.ts`: the base class `Clause` (always true),
`Literal`, `Negation`, `Conjunction`, `Disjunction`. -/
inductive Clause where
  | true_ : Clause
  | literal (signal : Signal) (position : Int) (timeStep : Int) : Clause
  | negation (subclause : Clause) : Clause
  | conjunction (subclauses : List Clause) : Clause
  | disjunction (subclauses : List Clause) : Clause

mutual

/-- Structural decidable equality for `Clause` (nested inductive). -/
def Clause.beq : Clause → Clause → Bool
  | .true_, .true_ => true
  | .literal s p t, .literal s' p' t' => s = s' ∧ p = p' ∧ t = t'
  | .negation c, .negation c' => Clause.beq c c'
  | .conjunction cs, .conjunction cs' => Clause.beqList cs cs'
  | .disjunction cs, .disjunction cs' => Clause.beqList cs cs'
  | _, _ => false

/-- List version of `Clause.beq`. -/
def Clause.beqList : List Clause → List Clause → Bool
  | [], [] => true
  | c :: cs, c' :: cs' => Clause.beq c c' && Clause.beqList cs cs'
  | _, _ => false

end

mutual

theorem Clause.beq_iff : ∀ a b : Clause, Clause.beq a b = true ↔ a = b
  | .true_, b => by
    cases b <;> simp [Clause.beq]
  | .literal s p t, b => by
    cases b <;> simp [Clause.beq]
  | .negation c, b => by
    cases b <;> simp [Clause.beq, Clause.beq_iff c]
  | .conjunction cs, b => by
    cases b <;> simp [Clause.beq, Clause.beqList_iff cs]
  | .disjunction cs, b => by
    cases b <;> simp [Clause.beq, Clause.beqList_iff cs]

theorem Clause.beqList_iff : ∀ a b : List Clause, Clause.beqList a b = true ↔ a = b
  | [], b => by cases b <;> simp [Clause.beqList]
  | c :: cs, b => by
    cases b with
    | nil => simp [Clause.beqList]
    | cons c' cs' =>
      simp [Clause.beqList, Clause.beq_iff c, Clause.beqList_iff cs]

end

instance : DecidableEq Clause := fun a b =>
  decidable_of_iff (Clause.beq a b = true) (Clause.beq_iff a b)

mutual

/-- `Clause.eval(signals)`: `some b` is a returned boolean, `none` a thrown
TypeError (a literal whose position is not a key of the neighborhood object:
`signals[this.position]` is `undefined` and `.has` throws). -/
def Clause.eval (signals : Neighborhood) : Clause → Option Bool
  | .true_ => some true
  | .literal s pos _ =>
    match signals pos with
    | none => none
    | some set => some (decide (s ∈ set))
  | .negation sub =>
    match Clause.eval signals sub with
    | none => none
    | some b => some (!b)
  | .conjunction subs => Clause.evalAll signals subs
  | .disjunction subs => Clause.evalAny signals subs

/-- `Array.prototype.every` over subclauses: stop at the first `false`,
propagate a thrown error. -/
def Clause.evalAll (signals : Neighborhood) : List Clause → Option Bool
  | [] => some true
  | c :: cs =>
    match Clause.eval signals c with
    | none => none
    | some true => Clause.evalAll signals cs
    | some false => some false

/-- `Array.prototype.some` over subclauses: stop at the first `true`,
propagate a thrown error. -/
def Clause.evalAny (signals : Neighborhood) : List Clause → Option Bool
  | [] => some false
  | c :: cs =>
    match Clause.eval signals c with
    | none => none
    | some false => Clause.evalAny signals cs
    | some true => some true

end

/-- `RuleOutput` from `Automaton.ts`: `{neighbor, signal, futureStep}`. -/
structure RuleOutput where
  neighbor : Int
  signal : Signal
  futureStep : Int
deriving DecidableEq

/-- `Rule` from `Automaton.ts`: a condition clause and an ordered output list. -/
structure Rule where
  condition : Clause
  outputs : List RuleOutput
deriving DecidableEq

/-- `Automaton` fields: ordered rule list and the derived bounds. -/
structure Automaton where
  rules : List Rule
  minNeighbor : Int
  maxNeighbor : Int
  maxFutureDepth : Int
deriving DecidableEq

deriving instance DecidableEq for Except

/-- The loop body of the `Conjunction` constructor: an immediately-nested
`Conjunction` child has its subclauses spliced in place, any other child is
pushed as-is. -/
def conjFlatten : List Clause → List Clause
  | [] => []
  | .conjunction cs :: rest => cs ++ conjFlatten rest
  | c :: rest => c :: conjFlatten rest

/-- `new Conjunction(subclauses)` from `Clause.ts`. -/
def mkConjunction (subclauses : List Clause) : Clause :=
  .conjunction (conjFlatten subclauses)

/-- One state of the `Disjunction` constructor loop: the array being iterated
(`for..of` reads it live, so pushes made through the alias are visited), the
current index, whether `this.subclauses` has been rebound to the input array
(`this.subclauses = subclauses` in the `else` branch), and the separate field
value while it is not aliased. -/
def disjCtorLoop : Nat → List Clause → Nat → Bool → List Clause → List Clause
  | 0, inputArr, _, aliased, field => if aliased then inputArr else field
  | fuel + 1, inputArr, i, aliased, field =>
    match inputArr.get? i with
    | some (.disjunction ds) =>
      if aliased then
        disjCtorLoop fuel (inputArr ++ ds) (i + 1) true field
      else
        disjCtorLoop fuel inputArr (i + 1) false (field ++ ds)
    | some _ => disjCtorLoop fuel inputArr (i + 1) true field
    | none => if aliased then inputArr else field

mutual

/-- Number of clause nodes, used to bound the `Disjunction` constructor loop
(every element appended through the alias is a strict subterm of an input). -/
def Clause.size : Clause → Nat
  | .true_ => 1
  | .literal _ _ _ => 1
  | .negation c => 1 + c.size
  | .conjunction cs => 1 + Clause.sizeList cs
  | .disjunction cs => 1 + Clause.sizeList cs

/-- List version of `Clause.size`. -/
def Clause.sizeList : List Clause → Nat
  | [] => 0
  | c :: cs => c.size + Clause.sizeList cs

end

/-- `new Disjunction(subclauses)` from `Clause.ts`, modelled faithfully with
its `this.subclauses = subclauses` aliasing slip. -/
def mkDisjunction (subclauses : List Clause) : Clause :=
  .disjunction
    (disjCtorLoop (subclauses.length + Clause.sizeList subclauses + 1) subclauses 0 false [])

/-- `new Negation(subclause)` from `Clause.ts`. -/
def mkNegation (subclause : Clause) : Clause :=
  .negation subclause

/-- Add a signal to `diagram[tt].cells[tc]` (in-place `Set.add`, modelled as a
functional update; callers have already checked the bounds). -/
def writeSignal (d : List Configuration) (tt tc : Nat) (s : Signal) : List Configuration :=
  match d.get? tt with
  | none => d
  | some cfg =>
    d.set tt ⟨match cfg.cells.get? tc with
      | none => cfg.cells
      | some cell => cfg.cells.set tc (setAdd cell s)⟩

/-- One output write of `makeDiagram`: the guard is
`t + futureStep < diagram.length && 0 <= targetCell && targetCell < nbCells`;
when it passes, `diagram[t + futureStep]` is dereferenced, which throws
(`none`) if the target time is negative. -/
def applyOutput (nbCells : Nat) (d : List Configuration) (t c : Nat) (o : RuleOutput) :
    Option (List Configuration) :=
  if (t : Int) + o.futureStep < (d.length : Int) ∧ 0 ≤ (c : Int) + o.neighbor ∧
      (c : Int) + o.neighbor < (nbCells : Int) then
    if 0 ≤ (t : Int) + o.futureStep then
      some (writeSignal d ((t : Int) + o.futureStep).toNat ((c : Int) + o.neighbor).toNat
        o.signal)
    else none
  else some d

/-- Sequential application of a fired rule's outputs. -/
def applyOutputs (nbCells t c : Nat) (d : List Configuration) :
    List RuleOutput → Option (List Configuration)
  | [] => some d
  | o :: os =>
    match applyOutput nbCells d t c o with
    | none => none
    | some d' => applyOutputs nbCells t c d' os

/-- Sequential evaluation of the rules on cell `c` at time `t`. The JS
neighborhood object holds live references to the mutable cell sets, so each
rule is evaluated against the current diagram state: the window is rebuilt
from the state the previous rules produced. -/
def applyRules (a : Automaton) (nbCells t c : Nat) (d : List Configuration) :
    List Rule → Option (List Configuration)
  | [] => some d
  | r :: rs =>
    match r.condition.eval ((d.getD t ⟨[]⟩).getNeighborhood c a.minNeighbor a.maxNeighbor) with
    | none => none
    | some false => applyRules a nbCells t c d rs
    | some true =>
      match applyOutputs nbCells t c d r.outputs with
      | none => none
      | some d' => applyRules a nbCells t c d' rs

/-- Process one cell of the inner `for (c …)` loop of `makeDiagram`. -/
def processCell (a : Automaton) (nbCells t c : Nat) (d : List Configuration) :
    Option (List Configuration) :=
  applyRules a nbCells t c d a.rules

/-- Process a list of cell indices left to right (the inner loop). -/
def processCells (a : Automaton) (nbCells t : Nat) (d : List Configuration) :
    List Nat → Option (List Configuration)
  | [] => some d
  | c :: cs =>
    match processCell a nbCells t c d with
    | none => none
    | some d' => processCells a nbCells t d' cs

/-- Process a list of time steps (the outer loop). -/
def processRows (a : Automaton) (nbCells : Nat) (d : List Configuration) :
    List Nat → Option (List Configuration)
  | [] => some d
  | t :: ts =>
    match processCells a nbCells t d (List.range nbCells) with
    | none => none
    | some d' => processRows a nbCells d' ts

/-- `Automaton.makeDiagram(initialConfiguration, nbSteps)`: allocate `nbSteps`
fresh empty configurations after the initial one, then run the nested loops.
`none` models a thrown TypeError during the run. -/
def Automaton.makeDiagram (a : Automaton) (initialConfiguration : Configuration)
    (nbSteps : Nat) : Option (List Configuration) :=
  processRows a initialConfiguration.getSize
    (initialConfiguration ::
      List.replicate nbSteps ⟨List.replicate initialConfiguration.getSize []⟩)
    (List.range nbSteps)

/-- The character class of `signalNameRE`: `[A-Za-z0-9_$']`. -/
def isSignalNameChar (ch : Char) : Bool :=
  ch.isAlpha || ch.isDigit || ch = '_' || ch = '$' || ch = '\''

/-- Longest run of signal-name characters (regex `+` is greedy). -/
def munchName : List Char → (List Char × List Char)
  | [] => ([], [])
  | ch :: rest =>
    if isSignalNameChar ch then
      let (name, rest') := munchName rest
      (ch :: name, rest')
    else ([], ch :: rest)

/-- Tokenizer for `parseCondition`'s `tokenRE`
`(\(|\)|\[|\]|\+|-|[A-Za-z0-9_$']+)` applied globally: bracket and sign
characters are single tokens, name characters munch greedily, anything else
is skipped.  The `Option` accumulator carries a name in progress (reversed). -/
def condTokensGo : Option (List Char) → List Char → List String
  | none, [] => []
  | some acc, [] => [String.mk acc.reverse]
  | none, ch :: rest =>
    if ch = '(' || ch = ')' || ch = '[' || ch = ']' || ch = '+' || ch = '-' then
      String.mk [ch] :: condTokensGo none rest
    else if isSignalNameChar ch then
      condTokensGo (some [ch]) rest
    else
      condTokensGo none rest
  | some acc, ch :: rest =>
    if isSignalNameChar ch then
      condTokensGo (some (ch :: acc)) rest
    else if ch = '(' || ch = ')' || ch = '[' || ch = ']' || ch = '+' || ch = '-' then
      String.mk acc.reverse :: String.mk [ch] :: condTokensGo none rest
    else
      String.mk acc.reverse :: condTokensGo none rest

/-- `conditionString.match(tokenRE)` (an empty result models `null`). -/
def condTokens (cs : List Char) : List String :=
  condTokensGo none cs

mutual

/-- `Automaton.readConditionTokens`, with fuel standing in for the implicit
recursion depth (every call strictly consumes tokens, so any fuel beyond
`2 * tokens.length + 2` is enough).  The token list is threaded explicitly in
place of the mutated JS array. -/
def readConditionTokens : Nat → List String → Except String (Clause × List String)
  | 0, _ => .error "fuel exhausted"
  | fuel + 1, tokens =>
    match tokens with
    | [] => .ok (.true_, [])
    | tok :: rest =>
      if tok = "(" then
        match readGroupTokens fuel ")" rest with
        | .error e => .error e
        | .ok ([c], rest') => .ok (c, rest')
        | .ok (cs, rest') => .ok (mkConjunction cs, rest')
      else if tok = "[" then
        match readGroupTokens fuel "]" rest with
        | .error e => .error e
        | .ok ([c], rest') => .ok (c, rest')
        | .ok (cs, rest') => .ok (mkDisjunction cs, rest')
      else if tok = "-" then
        match readConditionTokens fuel rest with
        | .error e => .error e
        | .ok (.negation sub, rest') => .ok (sub, rest')
        | .ok (c, rest') => .ok (.negation c, rest')
      else if tok = "+" then
        readConditionTokens fuel rest
      else
        .ok (.literal tok 0 0, rest)

/-- The `while (conditionTokens[0] !== closing)` loop of the group cases:
running out of tokens inside a group throws `Unbalanced parentheses`. -/
def readGroupTokens : Nat → String → List String → Except String (List Clause × List String)
  | 0, _, _ => .error "fuel exhausted"
  | fuel + 1, closing, tokens =>
    match tokens with
    | [] => .error "Unbalanced parentheses in condition"
    | t :: _ =>
      if t = closing then .ok ([], tokens.tail)
      else
        match readConditionTokens fuel tokens with
        | .error e => .error e
        | .ok (c, rest') =>
          match readGroupTokens fuel closing rest' with
          | .error e => .error e
          | .ok (cs, rest'') => .ok (c :: cs, rest'')

end

/-- `Automaton.parseCondition`: tokenize, read one clause, and require that
every token was consumed. -/
def parseCondition (conditionString : List Char) : Except String Clause :=
  let tokens := condTokens conditionString
  match tokens with
  | [] => .error "Invalid condition"
  | _ =>
    match readConditionTokens (2 * tokens.length + 2) tokens with
    | .error e => .error e
    | .ok (condition, []) => .ok condition
    | .ok (_, _ :: _) => .error "Invalid condition"

/-- Longest run of decimal digits. -/
def munchDigits : List Char → (List Char × List Char)
  | [] => ([], [])
  | ch :: rest =>
    if ch.isDigit then
      let (ds, rest') := munchDigits rest
      (ch :: ds, rest')
    else ([], ch :: rest)

/-- Decimal value of a digit run. -/
def digitsToNat (ds : List Char) : Nat :=
  ds.foldl (fun acc ch => 10 * acc + (ch.toNat - '0'.toNat)) 0

/-- Regex `-?\d+` at the current position, with its `parseInt` value. -/
def matchNum : List Char → Option (Int × List Char)
  | '-' :: rest =>
    let (ds, rest') := munchDigits rest
    if ds.isEmpty then none else some (-(digitsToNat ds : Int), rest')
  | cs =>
    let (ds, rest') := munchDigits cs
    if ds.isEmpty then none else some ((digitsToNat ds : Int), rest')

/-- One output token: the optional `neighbor[/futureStep].` prefix (already
split the way `parseOutputs` re-splits the matched string) and the name. -/
structure OutToken where
  pre : Option (Int × Option Int)
  name : String
deriving DecidableEq

/-- Regex `((num/)?num\.)?name` at the current position, with the
backtracking order of the optional prefix group: `num/num.name`, then
`num.name`, then a bare name. -/
def tryMatchOutput (cs : List Char) : Option (OutToken × List Char) :=
  let tryName : Option (Int × Option Int) → List Char → Option (OutToken × List Char) :=
    fun pre cs' =>
      match cs' with
      | ch :: rest =>
        if isSignalNameChar ch then
          let (nm, rest') := munchName rest
          some (⟨pre, String.mk (ch :: nm)⟩, rest')
        else none
      | [] => none
  let short : Option (OutToken × List Char) :=
    match matchNum cs with
    | some (a, '.' :: rest2) => tryName (some (a, none)) rest2
    | _ => none
  let full : Option (OutToken × List Char) :=
    match matchNum cs with
    | some (a, '/' :: rest2) =>
      match matchNum rest2 with
      | some (b, '.' :: rest3) => tryName (some (a, some b)) rest3
      | _ => none
    | _ => none
  match full with
  | some r => some r
  | none =>
    match short with
    | some r => some r
    | none => tryName none cs

/-- Global scan of `outputsString.match(tokenRE)`: try a match at each
position, skip one character on failure.  Fuel is the string length (every
emitted token consumes at least one character). -/
def outputTokensGo : Nat → List Char → List OutToken
  | 0, _ => []
  | _ + 1, [] => []
  | fuel + 1, ch :: rest =>
    match tryMatchOutput (ch :: rest) with
    | some (tok, rest') => tok :: outputTokensGo fuel rest'
    | none => outputTokensGo fuel rest

/-- `Automaton.parseOutputs`, threading `this.maxFutureDepth`.  A token with a
`/` prefix sets the output's `futureStep` and raises `maxFutureDepth`; a bare
prefix defaults `futureStep` to 1; a bare name defaults the neighbor to 0. -/
def parseOutputs (maxFutureDepth : Int) (outputsString : List Char) :
    Except String (List RuleOutput × Int) :=
  match outputTokensGo outputsString.length outputsString with
  | [] => .error "Invalid outputs"
  | tokens =>
    .ok (tokens.foldl
      (fun acc tok =>
        match tok.pre with
        | none => (acc.1 ++ [⟨0, tok.name, 1⟩], acc.2)
        | some (nb, none) => (acc.1 ++ [⟨nb, tok.name, 1⟩], acc.2)
        | some (nb, some fs) => (acc.1 ++ [⟨nb, tok.name, fs⟩], max acc.2 fs))
      ([], maxFutureDepth))

/-- `line.split('\n')`. -/
def splitLines : List Char → List (List Char)
  | [] => [[]]
  | '\n' :: rest => [] :: splitLines rest
  | ch :: rest =>
    match splitLines rest with
    | [] => [[ch]]
    | l :: ls => (ch :: l) :: ls

/-- `line.replace(/#.*/, '')`. -/
def stripComment (cs : List Char) : List Char :=
  cs.takeWhile (· ≠ '#')

/-- `String.prototype.trim`. -/
def jsTrim (cs : List Char) : List Char :=
  ((cs.dropWhile Char.isWhitespace).reverse.dropWhile Char.isWhitespace).reverse

/-- `line.search(/\S|$/)`: the indentation width of the original line. -/
def indentOf (cs : List Char) : Nat :=
  (cs.takeWhile Char.isWhitespace).length

/-- `line.split(':')` destructured to its first two parts (`none` when the
line has no colon). -/
def splitColon (cs : List Char) : Option (List Char × List Char) :=
  if cs.contains ':' then
    some (cs.takeWhile (· ≠ ':'), ((cs.dropWhile (· ≠ ':')).tail).takeWhile (· ≠ ':'))
  else none

/-- The line loop of the `Automaton` constructor: the conditions stack holds
`(condition, indent)` pairs with the innermost scope in front, `rules`
accumulates emitted rules in order, and `maxFutureDepth` is threaded through
`parseOutputs`.  An outputs-only line with an empty stack dereferences
`conditionsStack[0].condition` on `undefined` and throws. -/
def parseLines : List (List Char) → List (Clause × Nat) → List Rule → Int →
    Except String (List Rule × Int)
  | [], _, rules, mfd => .ok (rules, mfd)
  | line :: restLines, stack, rules, mfd =>
    let indent := indentOf line
    let stripped := jsTrim (stripComment line)
    if stripped.isEmpty then
      parseLines restLines stack rules mfd
    else
      let parts := splitColon stripped
      let conditionString := (parts.map Prod.fst).getD []
      let outputsString := (parts.map Prod.snd).getD stripped
      let stack' := stack.dropWhile (fun e => decide (e.2 ≥ indent))
      let conditionResult : Except String (Clause × List (Clause × Nat)) :=
        if !conditionString.isEmpty then
          match parseCondition conditionString with
          | .error e => .error e
          | .ok lineCondition =>
            match stack' with
            | [] => .ok (lineCondition, (lineCondition, indent) :: stack')
            | top :: _ =>
              let condition := mkConjunction [top.1, lineCondition]
              .ok (condition, (condition, indent) :: stack')
        else
          match stack' with
          | [] => .error "TypeError: conditionsStack[0] is undefined"
          | top :: _ => .ok (top.1, stack')
      match conditionResult with
      | .error e => .error e
      | .ok (condition, stack'') =>
        if !outputsString.isEmpty then
          match parseOutputs mfd outputsString with
          | .error e => .error e
          | .ok (outputs, mfd') =>
            parseLines restLines stack'' (rules ++ [⟨condition, outputs⟩]) mfd'
        else
          parseLines restLines stack'' rules mfd

/-- The `Automaton` constructor: run the line loop; `minNeighbor` and
`maxNeighbor` are initialized to 0 and never updated anywhere. -/
def Automaton.parse (rulesString : String) : Except String Automaton :=
  match parseLines (splitLines rulesString.data) [] [] 1 with
  | .error e => .error e
  | .ok (rules, mfd) => .ok ⟨rules, 0, 0, mfd⟩

/-- `getD` after `set` at a different index. -/
theorem getD_set_ne {α : Type} (l : List α) (i j : Nat) (a d : α) (h : i ≠ j) :
    (l.set i a).getD j d = l.getD j d := by
  simp [List.getD_eq_getElem?_getD, List.getElem?_set_ne h]

/-- `getD` after `set` at the same (in-range) index. -/
theorem getD_set_self {α : Type} (l : List α) (i : Nat) (a d : α) (h : i < l.length) :
    (l.set i a).getD i d = a := by
  simp [List.getD_eq_getElem?_getD, List.getElem?_set_self, h]

/-- `getD` through a successful `get?`. -/
theorem getD_eq_of_get? {α : Type} {l : List α} {n : Nat} {a d : α}
    (h : l.get? n = some a) : l.getD n d = a := by
  rw [List.getD_eq_getElem?_getD, ← List.get?_eq_getElem?, h]
  rfl

/-- Adding a signal never removes one. -/
theorem mem_setAdd_of_mem {cell : List Signal} {s s' : Signal} (h : s ∈ cell) :
    s ∈ setAdd cell s' := by
  unfold setAdd
  split
  · exact h
  · exact List.mem_append_left _ h

/-- The added signal is present afterwards. -/
theorem mem_setAdd_self (cell : List Signal) (s : Signal) : s ∈ setAdd cell s := by
  unfold setAdd
  split
  · assumption
  · exact List.mem_append_right _ (List.mem_singleton.mpr rfl)

/-- The signal set of `diagram[t].cells[k]` (empty out of range). -/
def cellSetAt (d : List Configuration) (t k : Nat) : List Signal :=
  (d.getD t ⟨[]⟩).cells.getD k []

/-- `writeSignal` only grows the cell sets. -/
theorem mem_cellSetAt_writeSignal {d : List Configuration} {tt tc : Nat} {s' : Signal}
    {t k : Nat} {s : Signal} (h : s ∈ cellSetAt d t k) :
    s ∈ cellSetAt (writeSignal d tt tc s') t k := by
  unfold writeSignal
  cases hget : d.get? tt with
  | none => exact h
  | some cfg =>
    obtain ⟨htt, -⟩ := List.get?_eq_some.mp hget
    by_cases hteq : t = tt
    · subst hteq
      unfold cellSetAt at h ⊢
      rw [getD_set_self _ _ _ _ htt]
      rw [getD_eq_of_get? hget] at h
      cases hcell : cfg.cells.get? tc with
      | none => exact h
      | some cell =>
        obtain ⟨htc, -⟩ := List.get?_eq_some.mp hcell
        by_cases hkeq : k = tc
        · subst hkeq
          show s ∈ (cfg.cells.set k (setAdd cell s')).getD k []
          rw [getD_set_self _ _ _ _ htc]
          rw [getD_eq_of_get? hcell] at h
          exact mem_setAdd_of_mem h
        · show s ∈ (cfg.cells.set tc (setAdd cell s')).getD k []
          rw [getD_set_ne _ _ _ _ _ (fun hh => hkeq hh.symm)]
          exact h
    · unfold cellSetAt
      rw [getD_set_ne _ _ _ _ _ (fun hh => hteq hh.symm)]
      exact h

/-- One output write only grows the cell sets. -/
theorem applyOutput_mono {nbCells : Nat} {d d' : List Configuration} {t c : Nat}
    {o : RuleOutput} (hap : applyOutput nbCells d t c o = some d')
    {tt k : Nat} {s : Signal} (h : s ∈ cellSetAt d tt k) : s ∈ cellSetAt d' tt k := by
  unfold applyOutput at hap
  split at hap
  · split at hap
    · cases hap
      exact mem_cellSetAt_writeSignal h
    · cases hap
  · cases hap
    exact h

/-- A fired rule's output list only grows the cell sets. -/
theorem applyOutputs_mono {nbCells t c : Nat} :
    ∀ {os : List RuleOutput} {d d' : List Configuration},
      applyOutputs nbCells t c d os = some d' →
      ∀ {tt k : Nat} {s : Signal}, s ∈ cellSetAt d tt k → s ∈ cellSetAt d' tt k := by
  intro os
  induction os with
  | nil =>
    intro d d' hap tt k s h
    cases hap
    exact h
  | cons o os ih =>
    intro d d' hap tt k s h
    unfold applyOutputs at hap
    cases hh : applyOutput nbCells d t c o with
    | none => rw [hh] at hap; cases hap
    | some d1 =>
      rw [hh] at hap
      exact ih hap (applyOutput_mono hh h)

/-- A pass over the rule list only grows the cell sets. -/
theorem applyRules_mono {a : Automaton} {nbCells t c : Nat} :
    ∀ {rs : List Rule} {d d' : List Configuration},
      applyRules a nbCells t c d rs = some d' →
      ∀ {tt k : Nat} {s : Signal}, s ∈ cellSetAt d tt k → s ∈ cellSetAt d' tt k := by
  intro rs
  induction rs with
  | nil =>
    intro d d' hap tt k s h
    cases hap
    exact h
  | cons r rs ih =>
    intro d d' hap tt k s h
    unfold applyRules at hap
    cases he : Clause.eval ((d.getD t ⟨[]⟩).getNeighborhood c a.minNeighbor a.maxNeighbor)
        r.condition with
    | none => rw [he] at hap; cases hap
    | some b =>
      rw [he] at hap
      cases b with
      | false => exact ih hap h
      | true =>
        cases ho : applyOutputs nbCells t c d r.outputs with
        | none => rw [ho] at hap; cases hap
        | some d1 =>
          rw [ho] at hap
          exact ih hap (applyOutputs_mono ho h)

/-- Processing a sequence of cells only grows the cell sets: a signal present
in the diagram state before some cells are processed is still present in the
state seen by every later cell (and at the end). -/
theorem processCells_mono {a : Automaton} {nbCells t : Nat} :
    ∀ {cs : List Nat} {d d' : List Configuration},
      processCells a nbCells t d cs = some d' →
      ∀ {tt k : Nat} {s : Signal}, s ∈ cellSetAt d tt k → s ∈ cellSetAt d' tt k := by
  intro cs
  induction cs with
  | nil =>
    intro d d' hap tt k s h
    cases hap
    exact h
  | cons c cs ih =>
    intro d d' hap tt k s h
    unfold processCells at hap
    cases hc : processCell a nbCells t c d with
    | none => rw [hc] at hap; cases hap
    | some d1 =>
      rw [hc] at hap
      exact ih hap (applyRules_mono hc h)

/-- Unfolding equation for `processCells` on a cons cell list. -/
theorem processCells_cons (a : Automaton) (nbCells t x : Nat) (zs : List Nat)
    (d : List Configuration) :
    processCells a nbCells t d (x :: zs) =
      (processCell a nbCells t x d).bind fun d1 => processCells a nbCells t d1 zs := by
  cases hc : processCell a nbCells t x d with
  | none => simp [processCells, hc]
  | some d1 => simp [processCells, hc]

/-- The inner cell loop splits over list append: everything the cells of `xs`
do is fully determined before any cell of `ys` runs. -/
theorem processCells_append (a : Automaton) (nbCells t : Nat) :
    ∀ (xs ys : List Nat) (d : List Configuration),
      processCells a nbCells t d (xs ++ ys) =
        (processCells a nbCells t d xs).bind fun d1 => processCells a nbCells t d1 ys := by
  intro xs
  induction xs with
  | nil => intro ys d; rfl
  | cons x xs ih =>
    intro ys d
    rw [List.cons_append, processCells_cons, processCells_cons]
    cases processCell a nbCells t x d with
    | none => rfl
    | some d1 => exact ih ys d1

/-- `writeSignal` preserves the number of configurations. -/
theorem writeSignal_length (d : List Configuration) (tt tc : Nat) (s : Signal) :
    (writeSignal d tt tc s).length = d.length := by
  unfold writeSignal
  cases d.get? tt with
  | none => rfl
  | some cfg => exact List.length_set ..

/-- `writeSignal` preserves every configuration's width. -/
theorem writeSignal_width (d : List Configuration) (tt tc : Nat) (s : Signal) (t : Nat) :
    ((writeSignal d tt tc s).getD t ⟨[]⟩).cells.length = ((d.getD t ⟨[]⟩)).cells.length := by
  unfold writeSignal
  cases hget : d.get? tt with
  | none => rfl
  | some cfg =>
    obtain ⟨htt, -⟩ := List.get?_eq_some.mp hget
    by_cases hteq : t = tt
    · subst hteq
      rw [getD_set_self _ _ _ _ htt, getD_eq_of_get? hget]
      cases hcell : cfg.cells.get? tc with
      | none => rfl
      | some cell => exact List.length_set ..
    · rw [getD_set_ne _ _ _ _ _ (fun hh => hteq hh.symm)]

/-- Shape preservation: same number of configurations, same width each. -/
def sameShape (d d' : List Configuration) : Prop :=
  d'.length = d.length ∧
    ∀ t : Nat, ((d'.getD t ⟨[]⟩)).cells.length = ((d.getD t ⟨[]⟩)).cells.length

theorem sameShape_refl (d : List Configuration) : sameShape d d :=
  ⟨rfl, fun _ => rfl⟩

theorem sameShape_trans {d1 d2 d3 : List Configuration}
    (h12 : sameShape d1 d2) (h23 : sameShape d2 d3) : sameShape d1 d3 :=
  ⟨h23.1.trans h12.1, fun t => (h23.2 t).trans (h12.2 t)⟩

/-- One output write preserves the diagram's shape. -/
theorem applyOutput_shape {nbCells : Nat} {d d' : List Configuration} {t c : Nat}
    {o : RuleOutput} (hap : applyOutput nbCells d t c o = some d') : sameShape d d' := by
  unfold applyOutput at hap
  split at hap
  · split at hap
    · cases hap
      exact ⟨writeSignal_length .., fun tt => writeSignal_width ..⟩
    · cases hap
  · cases hap
    exact sameShape_refl d

/-- A fired rule's outputs preserve the diagram's shape. -/
theorem applyOutputs_shape {nbCells t c : Nat} :
    ∀ {os : List RuleOutput} {d d' : List Configuration},
      applyOutputs nbCells t c d os = some d' → sameShape d d' := by
  intro os
  induction os with
  | nil =>
    intro d d' hap
    cases hap
    exact sameShape_refl d
  | cons o os ih =>
    intro d d' hap
    unfold applyOutputs at hap
    cases hh : applyOutput nbCells d t c o with
    | none => rw [hh] at hap; cases hap
    | some d1 =>
      rw [hh] at hap
      exact sameShape_trans (applyOutput_shape hh) (ih hap)

/-- A pass over the rule list preserves the diagram's shape. -/
theorem applyRules_shape {a : Automaton} {nbCells t c : Nat} :
    ∀ {rs : List Rule} {d d' : List Configuration},
      applyRules a nbCells t c d rs = some d' → sameShape d d' := by
  intro rs
  induction rs with
  | nil =>
    intro d d' hap
    cases hap
    exact sameShape_refl d
  | cons r rs ih =>
    intro d d' hap
    unfold applyRules at hap
    cases he : Clause.eval ((d.getD t ⟨[]⟩).getNeighborhood c a.minNeighbor a.maxNeighbor)
        r.condition with
    | none => rw [he] at hap; cases hap
    | some b =>
      rw [he] at hap
      cases b with
      | false => exact ih hap
      | true =>
        cases ho : applyOutputs nbCells t c d r.outputs with
        | none => rw [ho] at hap; cases hap
        | some d1 =>
          rw [ho] at hap
          exact sameShape_trans (applyOutputs_shape ho) (ih hap)

/-- The inner cell loop preserves the diagram's shape. -/
theorem processCells_shape {a : Automaton} {nbCells t : Nat} :
    ∀ {cs : List Nat} {d d' : List Configuration},
      processCells a nbCells t d cs = some d' → sameShape d d' := by
  intro cs
  induction cs with
  | nil =>
    intro d d' hap
    cases hap
    exact sameShape_refl d
  | cons c cs ih =>
    intro d d' hap
    unfold processCells at hap
    cases hc : processCell a nbCells t c d with
    | none => rw [hc] at hap; cases hap
    | some d1 =>
      rw [hc] at hap
      exact sameShape_trans (applyRules_shape hc) (ih hap)

/-- The outer time loop preserves the diagram's shape. -/
theorem processRows_shape {a : Automaton} {nbCells : Nat} :
    ∀ {ts : List Nat} {d d' : List Configuration},
      processRows a nbCells d ts = some d' → sameShape d d' := by
  intro ts
  induction ts with
  | nil =>
    intro d d' hap
    cases hap
    exact sameShape_refl d
  | cons t ts ih =>
    intro d d' hap
    unfold processRows at hap
    cases hc : processCells a nbCells t d (List.range nbCells) with
    | none => rw [hc] at hap; cases hap
    | some d1 =>
      rw [hc] at hap
      exact sameShape_trans (processCells_shape hc) (ih hap)

/-- With no rules every loop is the identity on the diagram. -/
theorem processRows_nil_rules {a : Automaton} (h : a.rules = []) (nbCells : Nat) :
    ∀ (ts : List Nat) (d : List Configuration), processRows a nbCells d ts = some d := by
  have hcells : ∀ (cs : List Nat) (t : Nat) (d : List Configuration),
      processCells a nbCells t d cs = some d := by
    intro cs
    induction cs with
    | nil => intro t d; rfl
    | cons c cs ih =>
      intro t d
      rw [processCells_cons]
      show (processCell a nbCells t c d).bind _ = _
      unfold processCell
      rw [h]
      show (applyRules a nbCells t c d []).bind _ = _
      unfold applyRules
      show (some d).bind _ = _
      rw [Option.some_bind]
      exact ih t d
  intro ts
  induction ts with
  | nil => intro d; rfl
  | cons t ts ih =>
    intro d
    unfold processRows
    rw [hcells (List.range nbCells) t d]
    exact ih d

/-- A `futureStep = 0`, `neighborOffset = 0` output fired on cell `c` at time
`t` writes into `diagram[t]` itself, at cell `c`. -/
theorem applyOutput_selfWrite (nbCells : Nat) (d : List Configuration) (t c : Nat)
    (s : Signal) (hc : c < nbCells) (ht : t < d.length)
    (hw : c < ((d.getD t ⟨[]⟩)).cells.length) :
    ∃ d', applyOutput nbCells d t c ⟨0, s, 0⟩ = some d' ∧ s ∈ cellSetAt d' t c := by
  refine ⟨writeSignal d t c s, ?_, ?_⟩
  · unfold applyOutput
    have hcond : (t : Int) + (0 : Int) < (d.length : Int) ∧ 0 ≤ (c : Int) + (0 : Int) ∧
        (c : Int) + (0 : Int) < (nbCells : Int) := by
      refine ⟨?_, ?_, ?_⟩ <;> omega
    rw [if_pos hcond, if_pos (by omega : (0 : Int) ≤ (t : Int) + (0 : Int))]
    norm_num
  · have hget : d.get? t = some (d.getD t ⟨[]⟩) := by
      rw [List.getD_eq_getElem?_getD, ← List.get?_eq_getElem?]
      cases hx : d.get? t with
      | none =>
        rw [List.get?_eq_none] at hx
        omega
      | some cfg => rfl
    unfold cellSetAt writeSignal
    rw [hget]
    rw [getD_set_self _ _ _ _ ht]
    cases hcell : (d.getD t ⟨[]⟩).cells.get? c with
    | none =>
      rw [List.get?_eq_none] at hcell
      omega
    | some cell =>
      show s ∈ ((d.getD t ⟨[]⟩).cells.set c (setAdd cell s)).getD c []
      obtain ⟨hlt, -⟩ := List.get?_eq_some.mp hcell
      rw [getD_set_self _ _ _ _ hlt]
      exact mem_setAdd_self cell s

/-- A cell inside the strip whose offset from the focal cell lies within the
window is mapped by `getNeighborhood` to exactly that cell's signal set. -/
theorem getNeighborhood_reachback (config : Configuration) (cPrime k : Nat)
    (minN maxN : Int) (hk : k < config.cells.length)
    (h1 : minN ≤ (k : Int) - (cPrime : Int)) (h2 : (k : Int) - (cPrime : Int) ≤ maxN) :
    config.getNeighborhood cPrime minN maxN ((k : Int) - (cPrime : Int)) =
      some (config.cells.getD k []) := by
  unfold Configuration.getNeighborhood
  rw [if_pos ⟨h1, h2⟩]
  have he : (cPrime : Int) + ((k : Int) - (cPrime : Int)) = (k : Int) := by ring
  rw [if_pos (by rw [he]; constructor <;> omega)]
  congr 1
  rw [he]
  simp

/-- Evaluating a literal whose position is outside the window yields the
thrown-error result, never `some false`. -/
theorem literal_eval_outside_window (config : Configuration) (c : Nat) (minN maxN : Int)
    (s : Signal) (p tstep : Int) (h : p < minN ∨ maxN < p) :
    Clause.eval (config.getNeighborhood c minN maxN) (.literal s p tstep) = none := by
  have hwin : config.getNeighborhood c minN maxN p = none := by
    unfold Configuration.getNeighborhood
    rw [if_neg]
    intro hcon
    rcases h with h | h <;> omega
  simp [Clause.eval, hwin]

/-- A group that reads back exactly one subclause degenerates to that
subclause: no `Conjunction` wrapper is built. -/
theorem readConditionTokens_singleton_group (fuel : Nat) (ts : List String) (c : Clause)
    (rest : List String) (hhead : ts.head? ≠ some ")")
    (hread : readConditionTokens (fuel + 1) ts = .ok (c, ")" :: rest)) :
    readConditionTokens (fuel + 3) ("(" :: ts) = .ok (c, rest) := by
  obtain ⟨t, ts', rfl⟩ : ∃ t ts', ts = t :: ts' := by
    cases ts with
    | nil =>
      exfalso
      simp only [readConditionTokens] at hread
      cases hread
    | cons t ts' => exact ⟨t, ts', rfl⟩
  have ht : ¬(t = ")") := by
    intro h
    subst h
    simp at hhead
  have hgroup : readGroupTokens (fuel + 2) ")" (t :: ts') = .ok ([c], rest) := by
    simp only [readGroupTokens]
    rw [if_neg ht, hread]
    simp [readGroupTokens]
  simp [readConditionTokens, hgroup]

/-- An opening parenthesis with no matching closer is a parse failure for
every fuel value. -/
theorem readConditionTokens_unbalanced (fuel : Nat) :
    ∃ e, readConditionTokens fuel ["("] = .error e := by
  cases fuel with
  | zero => exact ⟨_, rfl⟩
  | succ fuel =>
    cases fuel with
    | zero => exact ⟨_, rfl⟩
    | succ fuel => exact ⟨_, rfl⟩

/-- Building a fresh negation over a clause that is already a `Negation`
cancels: the parser returns the inner subclause. -/
theorem readConditionTokens_neg_cancel (fuel : Nat) (ts : List String) (sub : Clause)
    (rest : List String) (h : readConditionTokens fuel ts = .ok (.negation sub, rest)) :
    readConditionTokens (fuel + 1) ("-" :: ts) = .ok (sub, rest) := by
  simp only [readConditionTokens]
  rw [if_neg (by decide), if_neg (by decide)]
  simp [h]

/-- No clause of the form `Negation (Negation _)`: the shape the parser's
construction-time cancellation rules out. -/
def NDN (c : Clause) : Prop :=
  ∀ d, c ≠ .negation (.negation d)

theorem ndn_of_not_negation {c : Clause} (h : ∀ d, c ≠ .negation d) : NDN c := by
  intro d hd
  exact h (.negation d) hd

/-- Every clause the condition reader returns — and every element of a group
it reads — is free of a double negation at the root. -/
theorem readConditionTokens_ndn (fuel : Nat) :
    (∀ ts c rest, readConditionTokens fuel ts = .ok (c, rest) → NDN c) ∧
    (∀ closing ts cs rest, readGroupTokens fuel closing ts = .ok (cs, rest) →
      ∀ c ∈ cs, NDN c) := by
  induction fuel with
  | zero =>
    constructor
    · intro ts c rest h
      cases h
    · intro closing ts cs rest h
      cases h
  | succ fuel ih =>
    obtain ⟨ihc, ihg⟩ := ih
    constructor
    · intro ts c rest h
      cases ts with
      | nil =>
        simp only [readConditionTokens] at h
        cases h
        intro d hd
        exact Clause.noConfusion hd
      | cons tok ts' =>
        simp only [readConditionTokens] at h
        by_cases h1 : tok = "("
        · rw [if_pos h1] at h
          cases hg : readGroupTokens fuel ")" ts' with
          | error e => rw [hg] at h; cases h
          | ok pr =>
            obtain ⟨cs, rest'⟩ := pr
            rw [hg] at h
            match cs, h with
            | [], h =>
              cases h
              intro d hd
              exact Clause.noConfusion hd
            | [c0], h =>
              cases h
              exact ihg _ _ _ _ hg _ (List.mem_singleton.mpr rfl)
            | c0 :: c1 :: cs0, h =>
              cases h
              intro d hd
              exact Clause.noConfusion hd
        · rw [if_neg h1] at h
          by_cases h2 : tok = "["
          · rw [if_pos h2] at h
            cases hg : readGroupTokens fuel "]" ts' with
            | error e => rw [hg] at h; cases h
            | ok pr =>
              obtain ⟨cs, rest'⟩ := pr
              rw [hg] at h
              match cs, h with
              | [], h =>
                cases h
                intro d hd
                exact Clause.noConfusion hd
              | [c0], h =>
                cases h
                exact ihg _ _ _ _ hg _ (List.mem_singleton.mpr rfl)
              | c0 :: c1 :: cs0, h =>
                cases h
                intro d hd
                exact Clause.noConfusion hd
          · rw [if_neg h2] at h
            by_cases h3 : tok = "-"
            · rw [if_pos h3] at h
              cases hr : readConditionTokens fuel ts' with
              | error e => rw [hr] at h; cases h
              | ok pr =>
                obtain ⟨c0, rest'⟩ := pr
                rw [hr] at h
                cases c0 with
                | negation sub =>
                  cases h
                  have hn := ihc _ _ _ hr
                  intro d hd
                  refine hn (.negation d) ?_
                  rw [hd]
                | true_ =>
                  cases h
                  intro d hd
                  injection hd with h'
                  exact Clause.noConfusion h'
                | literal s p t =>
                  cases h
                  intro d hd
                  injection hd with h'
                  exact Clause.noConfusion h'
                | conjunction cs =>
                  cases h
                  intro d hd
                  injection hd with h'
                  exact Clause.noConfusion h'
                | disjunction cs =>
                  cases h
                  intro d hd
                  injection hd with h'
                  exact Clause.noConfusion h'
            · rw [if_neg h3] at h
              by_cases h4 : tok = "+"
              · rw [if_pos h4] at h
                exact ihc _ _ _ h
              · rw [if_neg h4] at h
                cases h
                intro d hd
                exact Clause.noConfusion hd
    · intro closing ts cs rest h
      cases ts with
      | nil =>
        simp only [readGroupTokens] at h
        cases h
      | cons t ts' =>
        simp only [readGroupTokens] at h
        by_cases hteq : t = closing
        · rw [if_pos hteq] at h
          cases h
          intro c hc
          cases hc
        · rw [if_neg hteq] at h
          cases hr : readConditionTokens fuel (t :: ts') with
          | error e => rw [hr] at h; cases h
          | ok pr =>
            obtain ⟨c0, rest'⟩ := pr
            rw [hr] at h
            simp only [] at h
            cases hg : readGroupTokens fuel closing rest' with
            | error e => rw [hg] at h; cases h
            | ok pr2 =>
              obtain ⟨cs0, rest''⟩ := pr2
              rw [hg] at h
              cases h
              intro c hc
              rcases List.mem_cons.mp hc with rfl | hc
              · exact ihc _ _ _ hr
              · exact ihg _ _ _ _ hg _ hc

/-- Double negation is transparent to evaluation: `eval` applies plain boolean
negation twice with no structural special case, so the construction-time
cancellation is semantics-preserving and no evaluation-time check exists. -/
theorem eval_negation_negation (nb : Neighborhood) (c : Clause) :
    Clause.eval nb (.negation (.negation c)) = Clause.eval nb c := by
  simp only [Clause.eval]
  cases Clause.eval nb c with
  | none => rfl
  | some b => cases b <;> rfl

/-- The outer time loop only grows the cell sets. -/
theorem processRows_mono {a : Automaton} {nbCells : Nat} :
    ∀ {ts : List Nat} {d d' : List Configuration},
      processRows a nbCells d ts = some d' →
      ∀ {tt k : Nat} {s : Signal}, s ∈ cellSetAt d tt k → s ∈ cellSetAt d' tt k := by
  intro ts
  induction ts with
  | nil =>
    intro d d' hap tt k s h
    cases hap
    exact h
  | cons t ts ih =>
    intro d d' hap tt k s h
    unfold processRows at hap
    cases hc : processCells a nbCells t d (List.range nbCells) with
    | none => rw [hc] at hap; cases hap
    | some d1 =>
      rw [hc] at hap
      exact ih hap (processCells_mono hc h)

/-- `getD` on a replicated list. -/
theorem getD_replicate {α : Type} (a d : α) :
    ∀ (n i : Nat), i < n → (List.replicate n a).getD i d = a := by
  intro n
  induction n with
  | zero => intro i h; omega
  | succ n ih =>
    intro i h
    cases i with
    | zero => rfl
    | succ j => exact ih j (by omega)

/-- Every configuration of the freshly allocated diagram has the input's
width. -/
theorem initialDiagram_width (cfg : Configuration) (n i : Nat) (h : i < n + 1) :
    (((cfg :: List.replicate n ⟨List.replicate cfg.getSize []⟩).getD i ⟨[]⟩)).cells.length =
      cfg.getSize := by
  cases i with
  | zero => rfl
  | succ j =>
    have hj : j < n := by omega
    show ((List.replicate n (⟨List.replicate cfg.getSize []⟩ : Configuration)).getD j
      ⟨[]⟩).cells.length = _
    rw [getD_replicate _ _ _ _ hj]
    exact List.length_replicate ..

mutual

/-- Position offsets of every `Literal` in a clause, in order. -/
def Clause.positions : Clause → List Int
  | .true_ => []
  | .literal _ p _ => [p]
  | .negation c => c.positions
  | .conjunction cs => Clause.positionsList cs
  | .disjunction cs => Clause.positionsList cs

/-- List version of `Clause.positions`. -/
def Clause.positionsList : List Clause → List Int
  | [] => []
  | c :: cs => c.positions ++ Clause.positionsList cs

end

/-- The offsets §4.4 of the spec prescribes scanning: every Literal's position
offset across all conditions and every RuleOutput's neighbor offset across
all outputs. -/
def specNeighborOffsets (rules : List Rule) : List Int :=
  (rules.map fun r => r.condition.positions ++ r.outputs.map RuleOutput.neighbor).flatten

/-- The `minNeighbor` §4.4 of the spec prescribes: the minimum over all
scanned offsets, inclusive of 0. -/
def specMinNeighbor (rules : List Rule) : Int :=
  (specNeighborOffsets rules).foldl min 0

/-- The `maxNeighbor` §4.4 of the spec prescribes: the maximum over all
scanned offsets, inclusive of 0. -/
def specMaxNeighbor (rules : List Rule) : Int :=
  (specNeighborOffsets rules).foldl max 0

/-- C1: a rule output with `futureStep = 0` and `neighborOffset = 0` firing on
cell `c` at time `t` writes into `diagram[t]` itself at cell `c`; a signal
present in the state is still present in the state every later cell is
evaluated against (and in any window offset reaching back to it), while cells
already processed were evaluated entirely before the remaining cells run; and
concretely, for rule text `A: 0/0.B` on a 3-cell configuration with cell 0 =
{A}, after `makeDiagram(_, 1)` the configuration at time 0 has cell 0 =
{A, B}. -/
theorem C1_sameStepFeedback :
    (Automaton.parse "A: 0/0.B" =
      .ok ⟨[⟨.literal "A" 0 0, [⟨0, "B", 0⟩]⟩], 0, 0, 1⟩) ∧
    (Automaton.makeDiagram ⟨[⟨.literal "A" 0 0, [⟨0, "B", 0⟩]⟩], 0, 0, 1⟩
        ⟨[["A"], [], []]⟩ 1 =
      some [⟨[["A", "B"], [], []]⟩, ⟨[[], [], []]⟩]) ∧
    (∀ (nbCells : Nat) (d : List Configuration) (t c : Nat) (s : Signal),
      c < nbCells → t < d.length → c < ((d.getD t ⟨[]⟩)).cells.length →
      ∃ d', applyOutput nbCells d t c ⟨0, s, 0⟩ = some d' ∧ s ∈ cellSetAt d' t c) ∧
    (∀ (a : Automaton) (nbCells t : Nat) (cs : List Nat) (d d' : List Configuration)
        (tt k : Nat) (s : Signal),
      processCells a nbCells t d cs = some d' →
      s ∈ cellSetAt d tt k → s ∈ cellSetAt d' tt k) ∧
    (∀ (config : Configuration) (cPrime k : Nat) (minN maxN : Int),
      k < config.cells.length → minN ≤ (k : Int) - (cPrime : Int) →
      (k : Int) - (cPrime : Int) ≤ maxN →
      config.getNeighborhood cPrime minN maxN ((k : Int) - (cPrime : Int)) =
        some (config.cells.getD k [])) ∧
    (∀ (a : Automaton) (nbCells t : Nat) (xs ys : List Nat) (d : List Configuration),
      processCells a nbCells t d (xs ++ ys) =
        (processCells a nbCells t d xs).bind fun d1 => processCells a nbCells t d1 ys) :=
  ⟨by decide, by decide,
   fun nbCells d t c s hc ht hw => applyOutput_selfWrite nbCells d t c s hc ht hw,
   fun _ _ _ _ _ _ _ _ _ hp hm => processCells_mono hp hm,
   fun config cPrime k minN maxN hk h1 h2 =>
     getNeighborhood_reachback config cPrime k minN maxN hk h1 h2,
   fun a nbCells t xs ys d => processCells_append a nbCells t xs ys d⟩

/-- Witness for C1: the hypothesis-bearing conjuncts applied at concrete
inputs. -/
theorem C1_sameStepFeedback_witness :
    (∃ d', applyOutput 3 [⟨[["A"], [], []]⟩, ⟨[[], [], []]⟩] 0 0 ⟨0, "B", 0⟩ = some d' ∧
      "B" ∈ cellSetAt d' 0 0) ∧
    ("A" ∈ cellSetAt [⟨[["A"]]⟩] 0 0) ∧
    (Configuration.getNeighborhood ⟨[["B"], []]⟩ 1 (-1) 0 ((0 : Int) - (1 : Int)) =
      some (Configuration.cells ⟨[["B"], []]⟩ |>.getD 0 [])) := by
  refine ⟨C1_sameStepFeedback.2.2.1 3 [⟨[["A"], [], []]⟩, ⟨[[], [], []]⟩] 0 0 "B"
    (by decide) (by decide) (by decide), ?_, ?_⟩
  · exact C1_sameStepFeedback.2.2.2.1 ⟨[], 0, 0, 1⟩ 1 0 [0] [⟨[["A"]]⟩] [⟨[["A"]]⟩] 0 0 "A"
      (by decide) (by decide)
  · exact C1_sameStepFeedback.2.2.2.2.1 ⟨[["B"], []]⟩ 1 0 (-1) 0
      (by decide) (by decide) (by decide)

/-- C2: the code initializes `minNeighbor`/`maxNeighbor` to 0 and never
updates them from parsed literals or outputs, so for `A: 1.B` the parsed
automaton keeps `maxNeighbor = 0` although the §4.4 scan yields 1 (the spec
flags this as a defect of the source). -/
theorem C2_neighborBoundsNotDerived :
    Automaton.parse "A: 1.B" =
      .ok ⟨[⟨.literal "A" 0 0, [⟨1, "B", 1⟩]⟩], 0, 0, 1⟩ ∧
    specMaxNeighbor [⟨.literal "A" 0 0, [⟨1, "B", 1⟩]⟩] = 1 ∧
    specMinNeighbor [⟨.literal "A" 0 0, [⟨1, "B", 1⟩]⟩] = 0 := by
  refine ⟨by decide, by decide, by decide⟩

/-- C3 counterexample: for a zero-rule automaton and the non-empty initial
configuration [{A}], the returned single configuration is the input, which is
not empty — the returned `nbSteps + 1` configurations are not all empty. -/
theorem C3_counterexample :
    Automaton.makeDiagram ⟨[], 0, 0, 1⟩ ⟨[["A"]]⟩ 0 = some [⟨[["A"]]⟩] ∧
    (⟨[["A"]]⟩ : Configuration) ≠ ⟨[[]]⟩ := by
  refine ⟨by decide, by decide⟩

/-- C3 (amended): whenever `makeDiagram` returns, it returns exactly
`nbSteps + 1` configurations, each of width N; index 0 is the input
configuration (its signals are all still present — same-step rules may only
have added more); and a zero-rule automaton returns the input followed by
`nbSteps` empty configurations of width N. -/
theorem C3_diagramShapeAmended :
    (∀ (a : Automaton) (cfg : Configuration) (n : Nat) (d : List Configuration),
      a.makeDiagram cfg n = some d →
      d.length = n + 1 ∧ (∀ x ∈ d, x.getSize = cfg.getSize) ∧
      (∀ k s, s ∈ cfg.cells.getD k [] → s ∈ cellSetAt d 0 k)) ∧
    (∀ (a : Automaton) (cfg : Configuration) (n : Nat), a.rules = [] →
      a.makeDiagram cfg n =
        some (cfg :: List.replicate n ⟨List.replicate cfg.getSize []⟩)) := by
  constructor
  · intro a cfg n d h
    unfold Automaton.makeDiagram at h
    have hshape := processRows_shape h
    have hlen : d.length = n + 1 := by
      rw [hshape.1]
      simp
    refine ⟨hlen, ?_, ?_⟩
    · intro x hx
      obtain ⟨⟨i, hi⟩, hget⟩ := List.get_of_mem hx
      have hgetq : d.get? i = some x := by
        rw [List.get?_eq_get hi, hget]
      have hxd : d.getD i ⟨[]⟩ = x := getD_eq_of_get? hgetq
      have hwidth := hshape.2 i
      rw [hxd] at hwidth
      show x.cells.length = cfg.getSize
      rw [hwidth]
      exact initialDiagram_width cfg n i (by omega)
    · intro k s hs
      exact processRows_mono h hs
  · intro a cfg n h
    unfold Automaton.makeDiagram
    exact processRows_nil_rules h _ _ _

/-- Witness for C3's amended theorem at a concrete run. -/
theorem C3_diagramShapeAmended_witness :
    (([⟨[["A", "B"], [], []]⟩, ⟨[[], [], []]⟩] : List Configuration).length = 1 + 1 ∧
      (∀ x ∈ ([⟨[["A", "B"], [], []]⟩, ⟨[[], [], []]⟩] : List Configuration),
        x.getSize = Configuration.getSize ⟨[["A"], [], []]⟩) ∧
      (∀ k s, s ∈ (Configuration.cells ⟨[["A"], [], []]⟩).getD k [] →
        s ∈ cellSetAt [⟨[["A", "B"], [], []]⟩, ⟨[[], [], []]⟩] 0 k)) ∧
    Automaton.makeDiagram ⟨[], 0, 0, 1⟩ ⟨[["A"]]⟩ 2 =
      some (⟨[["A"]]⟩ ::
        List.replicate 2 ⟨List.replicate (Configuration.getSize ⟨[["A"]]⟩) []⟩) := by
  constructor
  · exact C3_diagramShapeAmended.1 ⟨[⟨.literal "A" 0 0, [⟨0, "B", 0⟩]⟩], 0, 0, 1⟩
      ⟨[["A"], [], []]⟩ 1 [⟨[["A", "B"], [], []]⟩, ⟨[[], [], []]⟩] (by decide)
  · exact C3_diagramShapeAmended.2 ⟨[], 0, 0, 1⟩ ⟨[["A"]]⟩ 2 rfl

/-- C4 counterexample: an output with a negative target time that passes the
one-sided bound check makes `makeDiagram` throw (`none`) instead of being a
silent no-op, although `t + futureStep = -1` is outside the allocated
extent. -/
theorem C4_counterexample :
    Automaton.makeDiagram ⟨[⟨.true_, [⟨0, "B", -1⟩]⟩], 0, 0, 1⟩ ⟨[[]]⟩ 1 = none := by
  decide

/-- C4 (amended): a fired output whose target cell lies outside `[0, N)` or
whose target time is at or beyond the allocated diagram length is a silent
no-op — the diagram is returned unchanged and no error is raised; in
particular a rule firing at cell 0 with `neighborOffset = -1` produces no
write while the same rule's firing at cell 1 still lands. Only a negative
target time (a negative `futureStep`, violating the model's documented
`futureStep ≥ 0` invariant) errors. -/
theorem C4_boundaryDropAmended :
    (∀ (nbCells : Nat) (d : List Configuration) (t c : Nat) (o : RuleOutput),
      ((c : Int) + o.neighbor < 0 ∨ (nbCells : Int) ≤ (c : Int) + o.neighbor ∨
        (d.length : Int) ≤ (t : Int) + o.futureStep) →
      applyOutput nbCells d t c o = some d) ∧
    (Automaton.makeDiagram ⟨[⟨.true_, [⟨-1, "M", 1⟩]⟩], 0, 0, 1⟩ ⟨[[], []]⟩ 1 =
      some [⟨[[], []]⟩, ⟨[["M"], []]⟩]) := by
  constructor
  · intro nbCells d t c o h
    unfold applyOutput
    rw [if_neg]
    intro hcon
    rcases h with h | h | h <;> omega
  · decide

/-- Witness for C4's amended theorem: the boundary-drop no-op at cell 0 with
`neighborOffset = -1`. -/
theorem C4_boundaryDropAmended_witness :
    applyOutput 2 [⟨[[], []]⟩, ⟨[[], []]⟩] 0 0 ⟨-1, "M", 1⟩ =
      some [⟨[[], []]⟩, ⟨[[], []]⟩] :=
  C4_boundaryDropAmended.1 2 [⟨[[], []]⟩, ⟨[[], []]⟩] 0 0 ⟨-1, "M", 1⟩
    (Or.inl (by decide))

/-- C5: evaluating a Literal whose position offset lies outside the supplied
window `[minNeighbor, maxNeighbor]` is the thrown-error result (`none`,
modelling the TypeError on the `undefined` window entry), and is never
silently evaluated to `false`. -/
theorem C5_literalOutsideWindowFails (config : Configuration) (c : Nat)
    (minN maxN : Int) (s : Signal) (p tstep : Int) (h : p < minN ∨ maxN < p) :
    Clause.eval (config.getNeighborhood c minN maxN) (.literal s p tstep) = none ∧
    Clause.eval (config.getNeighborhood c minN maxN) (.literal s p tstep) ≠ some false :=
  have he := literal_eval_outside_window config c minN maxN s p tstep h
  ⟨he, by rw [he]; exact fun hc => Option.noConfusion hc⟩

/-- Witness for C5: position offset 1 against the `[0, 0]` window. -/
theorem C5_literalOutsideWindowFails_witness :
    Clause.eval (Configuration.getNeighborhood ⟨[["A"]]⟩ 0 0 0) (.literal "A" 1 0) =
      none ∧
    Clause.eval (Configuration.getNeighborhood ⟨[["A"]]⟩ 0 0 0) (.literal "A" 1 0) ≠
      some false :=
  C5_literalOutsideWindowFails ⟨[["A"]]⟩ 0 0 0 "A" 1 0 (Or.inr (by decide))

/-- A bracket group that reads back exactly one subclause also degenerates to
that subclause: no `Disjunction` wrapper is built. -/
theorem readConditionTokens_singleton_group_disj (fuel : Nat) (ts : List String)
    (c : Clause) (rest : List String) (hhead : ts.head? ≠ some "]")
    (hread : readConditionTokens (fuel + 1) ts = .ok (c, "]" :: rest)) :
    readConditionTokens (fuel + 3) ("[" :: ts) = .ok (c, rest) := by
  obtain ⟨t, ts', rfl⟩ : ∃ t ts', ts = t :: ts' := by
    cases ts with
    | nil =>
      exfalso
      simp only [readConditionTokens] at hread
      cases hread
    | cons t ts' => exact ⟨t, ts', rfl⟩
  have ht : ¬(t = "]") := by
    intro h
    subst h
    simp at hhead
  have hgroup : readGroupTokens (fuel + 2) "]" (t :: ts') = .ok ([c], rest) := by
    simp only [readGroupTokens]
    rw [if_neg ht, hread]
    simp [readGroupTokens]
  simp [readConditionTokens, hgroup]

/-- C6 counterexample: both zero-subclause groups parse successfully — `()`
to an empty `Conjunction` and `[]` to an empty `Disjunction` (not to a
`Negation` of `True`) — so a zero-subclause group is not a parse failure; and
a stray closing parenthesis standing alone, an unbalanced grouping, also
parses successfully (the reader's default branch returns a literal named
`)`), so unbalanced grouping is not always a parse failure either. -/
theorem C6_counterexample :
    parseCondition "()".data = .ok (.conjunction []) ∧
    parseCondition "[]".data = .ok (.disjunction []) ∧
    parseCondition ")".data = .ok (.literal ")" 0 0) := by
  refine ⟨by decide, by decide, by decide⟩

/-- C6 (amended): a zero-subclause group is not a parse failure: `()` parses
to an empty `Conjunction` (always true) and `[]` to an empty `Disjunction`
(always false, though not represented as a `Negation` of `True`); a group
containing exactly one subclause parses to that subclause itself, with no
wrapper, for both group kinds; and unbalanced grouping is a parse failure
only in part: a group opened but never closed fails, a stray closer after a
complete clause fails on the leftover tokens, but a stray closer standing
alone parses successfully as a literal named `)`. -/
theorem C6_groupParsingAmended :
    (parseCondition "()".data = .ok (.conjunction [])) ∧
    (∀ nb, Clause.eval nb (.conjunction []) = some true) ∧
    (parseCondition "[]".data = .ok (.disjunction [])) ∧
    (∀ nb, Clause.eval nb (.disjunction []) = some false) ∧
    (∀ fuel ts c rest, ts.head? ≠ some ")" →
      readConditionTokens (fuel + 1) ts = .ok (c, ")" :: rest) →
      readConditionTokens (fuel + 3) ("(" :: ts) = .ok (c, rest)) ∧
    (∀ fuel ts c rest, ts.head? ≠ some "]" →
      readConditionTokens (fuel + 1) ts = .ok (c, "]" :: rest) →
      readConditionTokens (fuel + 3) ("[" :: ts) = .ok (c, rest)) ∧
    (∀ fuel, ∃ e, readConditionTokens fuel ["("] = .error e) ∧
    (parseCondition "A)".data = .error "Invalid condition") ∧
    (parseCondition ")".data = .ok (.literal ")" 0 0)) :=
  ⟨by decide, fun _ => rfl, by decide, fun _ => rfl,
   readConditionTokens_singleton_group, readConditionTokens_singleton_group_disj,
   readConditionTokens_unbalanced, by decide, by decide⟩

/-- Witness for C6's amended theorem: `(A)` and `[A]` degenerate to the bare
literal. -/
theorem C6_groupParsingAmended_witness :
    readConditionTokens 3 ["(", "A", ")"] = .ok (.literal "A" 0 0, []) ∧
    readConditionTokens 3 ["[", "A", "]"] = .ok (.literal "A" 0 0, []) := by
  constructor
  · exact C6_groupParsingAmended.2.2.2.2.1 0 ["A", ")"] (.literal "A" 0 0) []
      (by decide) (by decide)
  · exact C6_groupParsingAmended.2.2.2.2.2.1 0 ["A", "]"] (.literal "A" 0 0) []
      (by decide) (by decide)

/-- C7: the `Disjunction` constructor does not flatten an immediately-nested
`Disjunction` child: with input `[Disjunction [X, Y], Z]` the non-Disjunction
child `Z` rebinds the field to the whole input array, so the built subclause
list is `[Disjunction [X, Y], Z]` — it still contains an immediate child of
its own variant. The parallel `Conjunction` constructor does flatten the
mirror-image input. -/
theorem C7_disjunctionNotFlattened :
    mkDisjunction [.disjunction [.literal "X" 0 0, .literal "Y" 0 0], .literal "Z" 0 0] =
      .disjunction [.disjunction [.literal "X" 0 0, .literal "Y" 0 0],
        .literal "Z" 0 0] ∧
    mkConjunction [.conjunction [.literal "X" 0 0, .literal "Y" 0 0], .literal "Z" 0 0] =
      .conjunction [.literal "X" 0 0, .literal "Y" 0 0, .literal "Z" 0 0] := by
  refine ⟨by decide, by decide⟩

/-- C8: the parser's fresh negation over a clause that is already a
`Negation` cancels at construction time: `- -A` (tokens `-`, `-`, `A`)
parses to the bare literal; reading `-` before tokens that produce a
`Negation` returns the inner subclause; no clause the reader returns is a
double negation at the root; and evaluation itself treats double negation by
plain boolean negation twice (the cancellation is semantics-preserving, not
an evaluation-time check). -/
theorem C8_doubleNegationCancels :
    (parseCondition "- -A".data = .ok (.literal "A" 0 0)) ∧
    (∀ fuel ts sub rest, readConditionTokens fuel ts = .ok (.negation sub, rest) →
      readConditionTokens (fuel + 1) ("-" :: ts) = .ok (sub, rest)) ∧
    (∀ fuel ts c rest, readConditionTokens fuel ts = .ok (c, rest) →
      ∀ d, c ≠ .negation (.negation d)) ∧
    (∀ (nb : Neighborhood) (c : Clause),
      Clause.eval nb (.negation (.negation c)) = Clause.eval nb c) :=
  ⟨by decide, readConditionTokens_neg_cancel,
   fun fuel ts c rest h => (readConditionTokens_ndn fuel).1 ts c rest h,
   eval_negation_negation⟩

/-- Witness for C8: the cancellation and root invariant at concrete tokens. -/
theorem C8_doubleNegationCancels_witness :
    readConditionTokens 3 ["-", "-", "A"] = .ok (.literal "A" 0 0, []) ∧
    Clause.literal "A" 0 0 ≠ .negation (.negation .true_) := by
  constructor
  · exact C8_doubleNegationCancels.2.1 2 ["-", "A"] (.literal "A" 0 0) [] (by decide)
  · exact C8_doubleNegationCancels.2.2.1 1 ["A"] (.literal "A" 0 0) [] (by decide) .true_

/-- C9: `makeDiagram` is deterministic — on structurally equal automata (same
rules in the same order, same `minNeighbor`, `maxNeighbor`,
`maxFutureDepth`), structurally equal initial configurations and equal
`nbSteps`, the returned diagrams are structurally equal. -/
theorem C9_makeDiagramDeterministic (a₁ a₂ : Automaton) (c₁ c₂ : Configuration)
    (n₁ n₂ : Nat) (hrules : a₁.rules = a₂.rules) (hmin : a₁.minNeighbor = a₂.minNeighbor)
    (hmax : a₁.maxNeighbor = a₂.maxNeighbor) (hfd : a₁.maxFutureDepth = a₂.maxFutureDepth)
    (hcells : c₁.cells = c₂.cells) (hn : n₁ = n₂) :
    a₁.makeDiagram c₁ n₁ = a₂.makeDiagram c₂ n₂ := by
  obtain ⟨r₁, mn₁, mx₁, fd₁⟩ := a₁
  obtain ⟨r₂, mn₂, mx₂, fd₂⟩ := a₂
  obtain ⟨cc₁⟩ := c₁
  obtain ⟨cc₂⟩ := c₂
  simp only [Automaton.rules, Automaton.minNeighbor, Automaton.maxNeighbor,
    Automaton.maxFutureDepth, Configuration.cells] at hrules hmin hmax hfd hcells
  subst hrules hmin hmax hfd hcells hn
  rfl

/-- Witness for C9 at two structurally equal concrete inputs. -/
theorem C9_makeDiagramDeterministic_witness :
    Automaton.makeDiagram ⟨[⟨.literal "A" 0 0, [⟨0, "B", 0⟩]⟩], 0, 0, 1⟩ ⟨[["A"]]⟩ 1 =
      Automaton.makeDiagram ⟨[⟨.literal "A" 0 0, [⟨0, "B", 0⟩]⟩], 0, 0, 1⟩ ⟨[["A"]]⟩ 1 :=
  C9_makeDiagramDeterministic _ _ _ _ _ _ rfl rfl rfl rfl rfl rfl

/-- C10: with `nbSteps = 0` the loops never run: `makeDiagram` returns the
one-element sequence holding exactly the input configuration, unchanged, for
every automaton. -/
theorem C10_zeroStepsIdentity (a : Automaton) (cfg : Configuration) :
    a.makeDiagram cfg 0 = some [cfg] :=
  rfl
